import Mathlib

/-!
Shallow embedding of the core signal-processing code of the
multi-track synthesizer backend
(`src/backend/synthesizer_backend.py`, `src/backend/audio_processor.py`).

Modelling conventions, used throughout:

* Python floats are modelled as exact rationals (`ℚ`).  Where IEEE-754
  non-finite results matter (division by zero producing `inf`/`nan` in
  `verify_frequency_accuracy` and in the spectrum normalization), a small
  `PyFloat` type with `fin`/`inf`/`neginf`/`nan` is used instead.
* `np.sin` is an external library function with transcendental values; the
  embedding takes the oscillator as an explicit parameter
  `sinq : ℚ → ℚ`, where `sinq x` models `sin(2·π·x)` (the argument is in
  cycles, so the code's `np.sin(2*np.pi*frequency*t)` becomes
  `sinq (frequency * t)`).  Theorems that need it assume `|sinq x| ≤ 1`.
* Python exceptions are modelled with `Except`: the `SynthError` type has a
  `valueError` constructor for the `ValueError`s that `max`, `np.max`,
  `np.argmin`, `np.linspace` and broadcasting can raise, plus the
  `emptyInput` / `invalidParameter` kinds that the specification's error
  taxonomy names (the Python code itself never produces those two).
* `int(x)` in Python truncates toward zero; `astype(np.int16)` truncates
  toward zero and reduces modulo 2^16 (C-cast behaviour; every verified
  code path keeps the value in range, where the reduction is the identity).
-/

instance {ε α : Type} [DecidableEq ε] [DecidableEq α] : DecidableEq (Except ε α) := fun x y =>
  match x, y with
  | .ok a, .ok b => if h : a = b then .isTrue (by rw [h]) else .isFalse (by simp [h])
  | .error a, .error b => if h : a = b then .isTrue (by rw [h]) else .isFalse (by simp [h])
  | .ok _, .error _ => .isFalse (by simp)
  | .error _, .ok _ => .isFalse (by simp)

/-- Python `int(x)`: truncation toward zero. -/
def pyInt (q : ℚ) : ℤ :=
  if q < 0 then -⌊-q⌋ else ⌊q⌋

/-- Reduction of an integer into the `int16` range `[-32768, 32767]`. -/
def wrap16 (z : ℤ) : ℤ :=
  (z + 32768) % 65536 - 32768

/-- `astype(np.int16)` applied to one float value: truncate toward zero,
then reduce into the 16-bit signed range. -/
def i16 (q : ℚ) : ℤ :=
  wrap16 (pyInt q)

/-- Error kinds.  `valueError` models a raised Python `ValueError` (with its
message); `emptyInput` and `invalidParameter` are the error kinds named by
the specification's error-handling design. -/
inductive SynthError where
  | emptyInput
  | invalidParameter
  | valueError (msg : String)
deriving DecidableEq

/-- A track specification, as consumed by `generate_multi_track`
(`synthesizer_backend.py`, lines 80-93): frequency in Hz, duration in
seconds, velocity in 0-127, start time in seconds. -/
structure Track where
  frequency : ℚ
  duration : ℚ
  velocity : ℚ
  start_time : ℚ
deriving DecidableEq

/-- The sample list produced by `generate_sine_wave` on its success path
(`synthesizer_backend.py`, lines 76-78): `n = int(sample_rate * duration)`
samples, `t_k = duration * k / n` (`np.linspace(0, duration, n, False)`),
sample value `amplitude * sin(2π * frequency * t_k)` cast to `int16`. -/
def sineSamples (sinq : ℚ → ℚ) (sr frequency duration amplitude : ℚ) : List ℤ :=
  let n : ℤ := pyInt (sr * duration)
  List.map (fun k : ℕ => i16 (amplitude * sinq (frequency * (duration * (k : ℚ) / (n : ℚ)))))
    (List.range n.toNat)

/-- `generate_sine_wave` (`synthesizer_backend.py`, lines 63-78).  The body
performs no parameter validation; the only failing operation is
`np.linspace(0, duration, num, False)`, which raises `ValueError` when
`num = int(sample_rate*duration)` is negative. -/
def generate_sine_wave (sinq : ℚ → ℚ) (sr frequency duration amplitude : ℚ) :
    Except SynthError (List ℤ) :=
  if pyInt (sr * duration) < 0 then
    .error (.valueError "Number of samples must be non-negative")
  else
    .ok (sineSamples sinq sr frequency duration amplitude)

/-- Python `max` over a list of rationals (used on the nonempty list of
per-track end times; the empty case raises and is handled at the call
site). -/
def pyMaxList (l : List ℚ) : ℚ :=
  l.foldl max (l.headD 0)

/-- `mixed[start_sample:end_sample] += samples`
(`synthesizer_backend.py`, lines 112-113) on a buffer of rationals.
NumPy raises a broadcast `ValueError` when the (clipped) slice is shorter
than `samples`; an empty `samples` never raises. -/
def sliceAdd (buf : List ℚ) (start : ℕ) (samples : List ℤ) :
    Except SynthError (List ℚ) :=
  if samples = [] then .ok buf
  else if start + samples.length ≤ buf.length then
    .ok ((List.range buf.length).map fun i =>
      if start ≤ i ∧ i < start + samples.length then
        buf.getD i 0 + ((samples.getD (i - start) 0 : ℤ) : ℚ)
      else buf.getD i 0)
  else .error (.valueError "operands could not be broadcast together")

/-- The per-track mixing loop of `generate_multi_track`
(`synthesizer_backend.py`, lines 102-113): for each track, generate the
sine samples at amplitude `32767 * (velocity / 127)` and add them to the
buffer at offset `int(start_time * sample_rate)`. -/
def mixLoop (sinq : ℚ → ℚ) (sr : ℚ) : List Track → List ℚ → Except SynthError (List ℚ)
  | [], buf => .ok buf
  | t :: ts, buf =>
      match generate_sine_wave sinq sr t.frequency t.duration (32767 * (t.velocity / 127)) with
      | .error e => .error e
      | .ok samples =>
          match sliceAdd buf (pyInt (t.start_time * sr)).toNat samples with
          | .error e => .error e
          | .ok buf2 => mixLoop sinq sr ts buf2

/-- Total sample count of the mix (`synthesizer_backend.py`, lines 95-96):
`int(sample_rate * max(t.start_time + t.duration for t in tracks))`. -/
def totalSamples (sr : ℚ) (tracks : List Track) : ℕ :=
  (pyInt (sr * pyMaxList (tracks.map fun t => t.start_time + t.duration))).toNat

/-- Lines 94-113 of `generate_multi_track`: the float accumulation stage.
`max` over an empty `tracks` raises `ValueError`. -/
def mixTracksFloat (sinq : ℚ → ℚ) (sr : ℚ) (tracks : List Track) :
    Except SynthError (List ℚ) :=
  if tracks = [] then .error (.valueError "max arg is an empty sequence")
  else mixLoop sinq sr tracks (List.replicate (totalSamples sr tracks) 0)

/-- `np.max(np.abs(mixed))` on a nonempty buffer
(`synthesizer_backend.py`, line 116). -/
def npMaxAbs (l : List ℚ) : ℚ :=
  (l.map abs).foldl max ((l.map abs).headD 0)

/-- A concrete oscillator instantiation used by counterexamples and
witnesses (the claims under test do not depend on the oscillator's
values). -/
def sinqZero : ℚ → ℚ := fun _ => 0

/-- `generate_multi_track` (`synthesizer_backend.py`, lines 80-121):
float-accumulate all tracks, then normalize by `32767/peak` when the peak
absolute value exceeds 32767, and cast to `int16`.  `np.max` raises
`ValueError` on a zero-length mixed buffer. -/
def generate_multi_track (sinq : ℚ → ℚ) (sr : ℚ) (tracks : List Track) :
    Except SynthError (List ℤ) :=
  match mixTracksFloat sinq sr tracks with
  | .error e => .error e
  | .ok mixed =>
      if mixed = [] then
        .error (.valueError "zero-size array to reduction operation maximum")
      else
        let max_val := npMaxAbs mixed
        let normalized := if 32767 < max_val then
            mixed.map fun x => x / max_val * 32767
          else mixed
        .ok (normalized.map i16)

/-- The contribution of a single track to output sample `i` of the float
mix: its `int16` tone samples, placed at offset
`int(start_time * sample_rate)`, zero elsewhere.  (Derived from the slice
assignment `mixed[start_sample:end_sample] += samples` of
`synthesizer_backend.py`, lines 112-113.) -/
def trackContrib (sinq : ℚ → ℚ) (sr : ℚ) (t : Track) (i : ℕ) : ℚ :=
  let off := (pyInt (t.start_time * sr)).toNat
  let s := sineSamples sinq sr t.frequency t.duration (32767 * (t.velocity / 127))
  if off ≤ i ∧ i < off + s.length then ((s.getD (i - off) 0 : ℤ) : ℚ) else 0

/-- Every position of the buffer (in or out of range) reads as an integer
value.  The float mix has this property because each track's samples are
cast to `int16` before accumulation (`synthesizer_backend.py`, line 78). -/
def intEntries (l : List ℚ) : Prop :=
  ∀ i : ℕ, ∃ z : ℤ, l.getD i 0 = (z : ℚ)


/-- A Python float value as needed by the embedding of
`verify_frequency_accuracy` and the spectrum normalization: a finite exact
value, or one of the IEEE-754 non-finite values that NumPy's float
division by zero produces (with a warning, not an exception). -/
inductive PyFloat where
  | fin (q : ℚ)
  | inf
  | neginf
  | nan
deriving DecidableEq

/-- IEEE-754 division of finite values: `a / 0` is `inf`/`-inf` for
nonzero `a` and `nan` for `a = 0`; otherwise exact. -/
def pydiv (a b : ℚ) : PyFloat :=
  if b ≠ 0 then .fin (a / b)
  else if 0 < a then .inf
  else if a < 0 then .neginf
  else .nan

/-- IEEE-754 ordering on floats: every comparison against `nan` is
false. -/
def PyFloat.le : PyFloat → PyFloat → Bool
  | .nan, _ => false
  | _, .nan => false
  | .neginf, _ => true
  | _, .neginf => false
  | _, .inf => true
  | .inf, _ => false
  | .fin a, .fin b => decide (a ≤ b)

/-- Multiplication of a float by a positive rational constant (used with
the factor 100 for `error_percent`). -/
def PyFloat.mulPos : PyFloat → ℚ → PyFloat
  | .fin q, c => .fin (q * c)
  | .inf, _ => .inf
  | .neginf, _ => .neginf
  | .nan, _ => .nan

/-- The result dictionary of `verify_frequency_accuracy`
(`synthesizer_backend.py`, lines 275-281). -/
structure VerificationResult where
  expected_frequency : ℚ
  detected_frequency : ℚ
  error_percent : PyFloat
  is_accurate : Bool
  tolerance_percent : ℚ
deriving DecidableEq

/-- Accumulator loop of `np.argmin`: first index of the minimum. -/
def npArgminGo : List ℚ → ℚ → ℕ → ℕ → ℕ
  | [], _, best, _ => best
  | x :: xs, bv, best, i =>
      if x < bv then npArgminGo xs x i (i + 1) else npArgminGo xs bv best (i + 1)

/-- `np.argmin`: index of the first occurrence of the minimum (raises on
an empty array; callers guard that case). -/
def npArgmin : List ℚ → ℕ
  | [] => 0
  | x :: xs => npArgminGo xs x 0 1

/-- Accumulator loop of `np.argmax`: first index of the maximum. -/
def npArgmaxGo : List ℚ → ℚ → ℕ → ℕ → ℕ
  | [], _, best, _ => best
  | x :: xs, bv, best, i =>
      if bv < x then npArgmaxGo xs x i (i + 1) else npArgmaxGo xs bv best (i + 1)

/-- `np.argmax`: index of the first occurrence of the maximum. -/
def npArgmax : List ℚ → ℕ
  | [] => 0
  | x :: xs => npArgmaxGo xs x 0 1

/-- `verify_frequency_accuracy` (`synthesizer_backend.py`, lines 251-281),
taking the detected peak frequency list as input (in the source it is read
from `compute_fft`, whose FFT is external `scipy` code).  `np.argmin` over
an empty peak array raises `ValueError`; `error` is the IEEE float
quotient `|detected - expected| / expected`, so `expected = 0` yields
`inf` (or `nan`), and `is_accurate = (error <= tolerance)` is then false
by the IEEE ordering. -/
def verify_frequency_accuracy (peak_frequencies : List ℚ)
    (expected_freq tolerance : ℚ) : Except SynthError VerificationResult :=
  if peak_frequencies = [] then
    .error (.valueError "attempt to get argmin of an empty sequence")
  else
    let closest_idx := npArgmin (peak_frequencies.map fun p => |p - expected_freq|)
    let detected_freq := peak_frequencies.getD closest_idx 0
    let error := pydiv |detected_freq - expected_freq| expected_freq
    .ok { expected_frequency := expected_freq
          detected_frequency := detected_freq
          error_percent := error.mulPos 100
          is_accurate := error.le (.fin tolerance)
          tolerance_percent := tolerance * 100 }

/-- The spectrum normalization `magnitude = magnitude / np.max(magnitude)`
(`synthesizer_backend.py`, line 160), applied to the one-sided magnitude
list (the FFT producing it is external `scipy` code).  The division is
unconditional; entries of an all-zero list become `0 / 0 = nan`. -/
def normalizeMagnitude (magnitude : List ℚ) : List PyFloat :=
  magnitude.map fun x => pydiv x (pyMaxList magnitude)

/-- One extracted note record of the pitch extractor
(`audio_processor.py`, lines 72-78); field names follow the dictionary
keys used there. -/
structure PTrack where
  frequency : ℚ
  duration : ℚ
  velocity : ℤ
  startTime : ℚ
deriving DecidableEq

/-- Lag-`k` autocorrelation of `w`:
`np.correlate(w, w, 'full')[n-1+k] = sum_i w i * w (i+k)`. -/
def acf (w : List ℚ) (k : ℕ) : ℚ :=
  ((List.range (w.length - k)).map fun i => w.getD i 0 * w.getD (i + k) 0).sum

/-- The second half `autocorr[len(autocorr)//2:]` of the full
autocorrelation (`audio_processor.py`, lines 93-94): lags `0 .. n-1`. -/
def autocorrHalf (w : List ℚ) : List ℚ :=
  (List.range w.length).map fun k => acf w k

/-- `_get_dominant_frequency` (`audio_processor.py`, lines 82-113).  The
Hann window (`scipy.signal.windows.hann`) has transcendental entries in
general, so the window is an explicit parameter; callers pass the window
of the segment's length.  The normalization divides by `autocorr[0]`; when
that value is 0 Python produces non-finite values with a warning — the
model uses rational division (`x / 0 = 0`) there, and no theorem below
depends on that corner because a positive scaling never moves the argmax.
The intermediate values (`min_period = sr // 2000`, the clamped
`max_period`, `peak_idx`) are split into the named helper definitions
`gdfAutocorr`, `gdfMaxPeriod` and `gdfPeakIdx` below. -/
def gdfAutocorr (window audio_segment : List ℚ) : List ℚ :=
  let windowed := List.zipWith (· * ·) audio_segment window
  let autocorr0 := autocorrHalf windowed
  autocorr0.map fun x => x / autocorr0.getD 0 0

/-- `max_period` after the clamp of `audio_processor.py`, lines 101-102:
`sr // 50`, lowered to `len(autocorr) - 1` when it exceeds the
autocorrelation length. -/
def gdfMaxPeriod (window audio_segment : List ℚ) (sr : ℕ) : ℕ :=
  if (gdfAutocorr window audio_segment).length < sr / 50 then
    (gdfAutocorr window audio_segment).length - 1
  else sr / 50

/-- `peak_idx` of `audio_processor.py`, line 107:
`min_period + np.argmax(autocorr[min_period:max_period])`. -/
def gdfPeakIdx (window audio_segment : List ℚ) (sr : ℕ) : ℕ :=
  sr / 2000 + npArgmax (((gdfAutocorr window audio_segment).drop (sr / 2000)).take
    (gdfMaxPeriod window audio_segment sr - sr / 2000))

def _get_dominant_frequency (window : List ℚ) (audio_segment : List ℚ) (sr : ℕ) : ℚ :=
  if audio_segment.length < 2 then 0
  else if sr / 2000 ≥ gdfMaxPeriod window audio_segment sr then 0
  else if 0 < gdfPeakIdx window audio_segment sr then
    (sr : ℚ) / (gdfPeakIdx window audio_segment sr : ℚ)
  else 0

/-- The segmentation and emission loop of `_extract_tracks`
(`audio_processor.py`, lines 55-78): each onset opens a segment running to
the next onset (or the end of the recording), the segment's dominant
frequency is estimated, and a note is emitted only when that frequency is
positive.  Onset detection (librosa) is an external capability, so the
ascending nonnegative onset-time list is an input; the Hann window family
is a parameter as in `_get_dominant_frequency`. -/
def _extract_tracks (hann : ℕ → List ℚ) (y : List ℚ) (sr : ℕ) :
    List ℚ → List PTrack
  | [] => []
  | onset :: rest =>
      let end_time := match rest with
        | next :: _ => next
        | [] => (y.length : ℚ) / (sr : ℚ)
      let duration := end_time - onset
      let start_sample := (pyInt (onset * sr)).toNat
      let end_sample := (pyInt (end_time * sr)).toNat
      let segment := (y.drop start_sample).take (end_sample - start_sample)
      let frequency := _get_dominant_frequency (hann segment.length) segment sr
      if frequency > 0 then
        { frequency := frequency, duration := duration,
          velocity := 100, startTime := onset } :: _extract_tracks hann y sr rest
      else _extract_tracks hann y sr rest

/-- The Hann window family used by the concrete pitch counterexample:
`scipy.signal.windows.hann n` has entries `0.5 - 0.5*cos(2*pi*k/(n-1))`;
for `n = 5` these are the exact rationals `[0, 1/2, 1, 1/2, 0]` (the
cosine is evaluated at quarter turns).  Other lengths are irrational and
unused by any theorem; they are given an all-zero placeholder. -/
def hannRat5 : ℕ → List ℚ := fun n =>
  if n = 5 then [0, 1/2, 1, 1/2, 0] else List.replicate n 0

/-- Local maxima of a sequence with flat tops resolved to their (floor)
midpoints, as `scipy.signal.find_peaks` detects them (its
`_local_maxima_1d` helper): index `m` qualifies when it is the midpoint
`(l + r) / 2` of a plateau `[l, r]` of equal values with
`1 ≤ l`, `r + 1 ≤ n - 1`, a strictly smaller value immediately left of
`l` and immediately right of `r`.  Modelled from the scipy documentation
and implementation: the repository delegates peak detection to scipy
(`synthesizer_backend.py`, line 163), which is external library code. -/
def localMaximaMid (x : List ℚ) : List ℕ :=
  (List.range x.length).filter fun m =>
    (List.range x.length).any fun l => (List.range x.length).any fun r =>
      decide (l ≤ r) && decide (m = (l + r) / 2) && decide (0 < l) &&
      decide (r + 1 < x.length) &&
      ((List.range (r - l + 1)).all fun j =>
        decide (x.getD (l + j) 0 = x.getD l 0)) &&
      decide (x.getD (l - 1) 0 < x.getD l 0) &&
      decide (x.getD (r + 1) 0 < x.getD r 0)

/-- One step of scipy's `_select_by_peak_distance` removal loop: if peak
index `j` is still kept, discard every other peak closer than `d` bins to
it. -/
def distStep (peaks : List ℕ) (d : ℕ) (keep : ℕ → Bool) (j : ℕ) : ℕ → Bool :=
  if keep j then
    fun k => if k ≠ j ∧ Nat.dist (peaks.getD j 0) (peaks.getD k 0) < d then false
      else keep k
  else keep

/-- The processing order of scipy's `_select_by_peak_distance`: peak
indices sorted by priority (peak height) ascending and then reversed, so
the highest peak is handled first.  Ties are determinized by index (the
source's `np.argsort` uses an unstable quicksort, leaving tie order
unspecified; the theorems below use distinct heights where it matters). -/
def priorityOrder (heights : List ℚ) (n : ℕ) : List ℕ :=
  ((List.range n).insertionSort fun i j =>
    heights.getD i 0 < heights.getD j 0 ∨
      (heights.getD i 0 = heights.getD j 0 ∧ i ≤ j)).reverse

/-- scipy's `_select_by_peak_distance`: process peaks from highest to
lowest, discarding any remaining peak within `d` bins of a kept one;
return the kept peak positions in ascending order. -/
def selectByPeakDistance (peaks : List ℕ) (heights : List ℚ) (d : ℕ) : List ℕ :=
  let n := peaks.length
  let keep := (priorityOrder heights n).foldl (distStep peaks d) fun _ => true
  ((List.range n).filter fun i => keep i).map fun i => peaks.getD i 0

/-- `scipy.signal.find_peaks(magnitude, height=0.1, distance=50)` as
called at `synthesizer_backend.py`, line 163: local maxima, filtered to
height at least `0.1`, thinned by the priority-based distance rule. -/
def find_peaks (x : List ℚ) : List ℕ :=
  let peaks := (localMaximaMid x).filter fun p => decide ((1:ℚ)/10 ≤ x.getD p 0)
  selectByPeakDistance peaks (peaks.map fun p => x.getD p 0) 50

/-- `np.argsort` ascending over the peak magnitudes, ties determinized by
index (the source's default quicksort leaves tie order unspecified). -/
def argsortAsc (vals : List ℚ) : List ℕ :=
  (List.range vals.length).insertionSort fun i j =>
    vals.getD i 0 < vals.getD j 0 ∨ (vals.getD i 0 = vals.getD j 0 ∧ i ≤ j)

/-- Lines 162-170 of `compute_fft`: detect peaks in the magnitude list,
read off their frequencies and magnitudes, sort by magnitude descending,
keep the top 10. -/
def findPeaksRanked (freqs mags : List ℚ) : List (ℚ × ℚ) :=
  let peaks := find_peaks mags
  let peak_freqs := peaks.map fun p => freqs.getD p 0
  let peak_mags := peaks.map fun p => mags.getD p 0
  let sorted_idx := (argsortAsc peak_mags).reverse
  (sorted_idx.map fun i => (peak_freqs.getD i 0, peak_mags.getD i 0)).take 10

/-- Modelled from the spec: the `findPeaks` selection as §4.2 words it — a
greedy left-to-right scan over the local maxima of height at least 0.1,
accepting a peak only when it is at least 50 bins away from every
previously accepted peak. -/
def findPeaksSpecGreedy (mags : List ℚ) : List ℕ :=
  ((localMaximaMid mags).filter fun p => decide ((1:ℚ)/10 ≤ mags.getD p 0)).foldl
    (fun acc p => if acc.all fun q => decide (50 ≤ Nat.dist p q) then acc ++ [p]
      else acc) []

/-- Modelled from the spec: the ranked peak list that §4.2's greedy
selection would produce, with the same descending sort and top-10 cap as
the code. -/
def findPeaksSpecRanked (freqs mags : List ℚ) : List (ℚ × ℚ) :=
  let peaks := findPeaksSpecGreedy mags
  let peak_freqs := peaks.map fun p => freqs.getD p 0
  let peak_mags := peaks.map fun p => mags.getD p 0
  let sorted_idx := (argsortAsc peak_mags).reverse
  (sorted_idx.map fun i => (peak_freqs.getD i 0, peak_mags.getD i 0)).take 10

/-!
## Claim C1 — mixing an empty track list

The claim asserts an explicit `EmptyInput` failure.  The code
(`synthesizer_backend.py`, line 95) evaluates
`max(t.start_time + t.duration for t in tracks)` first, so an empty track
list raises the generic `ValueError` of `max` over an empty sequence; no
`EmptyInput` error kind exists anywhere in the code.
-/

/-- Claim C1, counterexample: on the empty track list the mix fails with
the `ValueError` propagated from the empty `max`, which is not the
`EmptyInput` error the claim asserts. -/
theorem c1_counterexample_empty_mix_is_valueError :
    generate_multi_track sinqZero 44100 [] =
      .error (.valueError "max arg is an empty sequence") ∧
    SynthError.valueError "max arg is an empty sequence" ≠ SynthError.emptyInput := by
  exact ⟨rfl, by simp⟩

/-- Claim C1 (amended): for every oscillator and sample rate, mixing an
empty track list fails synchronously — with the `ValueError` raised by the
underlying empty `max`, not with an `EmptyInput` error kind — rather than
silently returning an empty buffer. -/
theorem c1_amended_empty_mix_fails (sinq : ℚ → ℚ) (sr : ℚ) :
    generate_multi_track sinq sr [] =
      .error (.valueError "max arg is an empty sequence") := rfl

/-!
## Claim C8 — parameter validation of `generate_sine_wave`

The claim asserts `InvalidParameter` failures for non-positive frequency,
duration or sample rate.  The code (`synthesizer_backend.py`, lines 63-78)
performs no validation at all: a non-positive frequency still yields a
sample buffer, and the only possible failure is the `ValueError` that
`np.linspace` raises when `int(sample_rate * duration)` is negative.
-/

/-- Claim C8, counterexample: `generate_sine_wave` called with frequency
`-440 ≤ 0` succeeds with a 4-sample buffer instead of failing with
`InvalidParameter`. -/
theorem c8_counterexample_negative_frequency_succeeds :
    generate_sine_wave sinqZero 4 (-440) 1 32767 = .ok [0, 0, 0, 0] ∧
    generate_sine_wave sinqZero 4 (-440) 1 32767 ≠
      .error SynthError.invalidParameter := by
  have h : generate_sine_wave sinqZero 4 (-440) 1 32767 = .ok [0, 0, 0, 0] := by
    with_unfolding_all rfl
  exact ⟨h, by rw [h]; simp⟩

/-- Claim C8 (amended): `generate_sine_wave` validates nothing.  Whenever
`int(sample_rate * duration)` is nonnegative it returns a buffer of that
many samples, regardless of the signs of frequency, duration or sample
rate; when `int(sample_rate * duration)` is negative it fails with the
`ValueError` of `np.linspace`; it never produces an `InvalidParameter`
error. -/
theorem c8_amended_no_parameter_validation (sinq : ℚ → ℚ)
    (sr frequency duration amplitude : ℚ) :
    (0 ≤ pyInt (sr * duration) →
      ∃ buf, generate_sine_wave sinq sr frequency duration amplitude = .ok buf ∧
        buf.length = (pyInt (sr * duration)).toNat) ∧
    (pyInt (sr * duration) < 0 →
      generate_sine_wave sinq sr frequency duration amplitude =
        .error (.valueError "Number of samples must be non-negative")) ∧
    generate_sine_wave sinq sr frequency duration amplitude ≠
      .error SynthError.invalidParameter := by
  refine ⟨fun h => ?_, fun h => ?_, ?_⟩
  · refine ⟨sineSamples sinq sr frequency duration amplitude, ?_, ?_⟩
    · simp [generate_sine_wave, not_lt.mpr h]
    · simp only [sineSamples, List.length_map, List.length_range]
  · simp [generate_sine_wave, h]
  · by_cases h : pyInt (sr * duration) < 0 <;> simp [generate_sine_wave, h]

/-- Claim C8, witness for the amended theorem at a concrete input with
non-positive frequency. -/
theorem c8_amended_witness :
    (∃ buf, generate_sine_wave sinqZero 4 (-440) 1 32767 = .ok buf ∧
      buf.length = (pyInt ((4:ℚ) * 1)).toNat) ∧
    generate_sine_wave sinqZero 4 (-440) 1 32767 ≠
      .error SynthError.invalidParameter := by
  have h0 : 0 ≤ pyInt ((4:ℚ) * 1) := by norm_num [pyInt]
  exact ⟨(c8_amended_no_parameter_validation sinqZero 4 (-440) 1 32767).1 h0,
    (c8_amended_no_parameter_validation sinqZero 4 (-440) 1 32767).2.2⟩

/-!
## Helper lemmas about the mixing pipeline
-/

theorem getD_lt {l : List ℚ} {i : ℕ} (h : i < l.length) : l.getD i 0 = l[i] := by
  simp [List.getD_eq_getElem?_getD, List.getElem?_eq_getElem h]

theorem getD_ge {l : List ℚ} {i : ℕ} (h : l.length ≤ i) : l.getD i 0 = 0 := by
  simp [List.getD_eq_getElem?_getD, List.getElem?_eq_none h]

theorem pyInt_of_nonneg {q : ℚ} (h : 0 ≤ q) : pyInt q = ⌊q⌋ := by
  unfold pyInt; rw [if_neg (not_lt.mpr h)]

theorem pyInt_intCast (z : ℤ) : pyInt (z : ℚ) = z := by
  unfold pyInt
  split
  · have h : (-(z:ℚ)) = ((-z : ℤ) : ℚ) := by push_cast; ring
    rw [h, Int.floor_intCast, neg_neg]
  · rw [Int.floor_intCast]

theorem pyInt_toNat_add_le {a b c : ℚ} (ha : 0 ≤ a) (hb : 0 ≤ b) (h : a + b ≤ c) :
    (pyInt a).toNat + (pyInt b).toNat ≤ (pyInt c).toNat := by
  have hc : 0 ≤ c := le_trans (add_nonneg ha hb) h
  rw [pyInt_of_nonneg ha, pyInt_of_nonneg hb, pyInt_of_nonneg hc]
  have h1 : ⌊a⌋ + ⌊b⌋ ≤ ⌊a + b⌋ := by
    apply Int.le_floor.mpr
    push_cast
    exact add_le_add (Int.floor_le a) (Int.floor_le b)
  have h2 : ⌊a + b⌋ ≤ ⌊c⌋ := Int.floor_mono h
  have h3 : (0:ℤ) ≤ ⌊a⌋ := Int.floor_nonneg.mpr ha
  have h4 : (0:ℤ) ≤ ⌊b⌋ := Int.floor_nonneg.mpr hb
  omega

theorem wrap16_bounds (z : ℤ) : -32768 ≤ wrap16 z ∧ wrap16 z ≤ 32767 := by
  unfold wrap16; omega

theorem wrap16_eq_self {z : ℤ} (h1 : -32768 ≤ z) (h2 : z ≤ 32767) : wrap16 z = z := by
  unfold wrap16; omega

theorem i16_bounds (q : ℚ) : -32768 ≤ i16 q ∧ i16 q ≤ 32767 := wrap16_bounds _

theorem pyInt_abs_le {q : ℚ} {c : ℤ} (hc : 0 ≤ c) (h : |q| ≤ (c : ℚ)) :
    -c ≤ pyInt q ∧ pyInt q ≤ c := by
  obtain ⟨hl, hr⟩ := abs_le.mp h
  unfold pyInt
  split
  · rename_i hq
    have h1 : (0:ℤ) ≤ ⌊-q⌋ := Int.floor_nonneg.mpr (by linarith)
    have h2 : ⌊-q⌋ ≤ c := by
      calc ⌊-q⌋ ≤ ⌊(c:ℚ)⌋ := Int.floor_mono (by linarith)
        _ = c := Int.floor_intCast c
    omega
  · rename_i hq
    have h1 : (0:ℤ) ≤ ⌊q⌋ := Int.floor_nonneg.mpr (not_lt.mp hq)
    have h2 : ⌊q⌋ ≤ c := by
      calc ⌊q⌋ ≤ ⌊(c:ℚ)⌋ := Int.floor_mono hr
        _ = c := Int.floor_intCast c
    omega

theorem i16_intCast {z : ℤ} (h1 : -32768 ≤ z) (h2 : z ≤ 32767) : i16 (z : ℚ) = z := by
  unfold i16; rw [pyInt_intCast]; exact wrap16_eq_self h1 h2

theorem sineSamples_length (sinq : ℚ → ℚ) (sr frequency duration amplitude : ℚ) :
    (sineSamples sinq sr frequency duration amplitude).length =
      (pyInt (sr * duration)).toNat := by
  simp only [sineSamples, List.length_map, List.length_range]

theorem sliceAdd_ok_length {buf : List ℚ} {s : ℕ} {smp : List ℤ} {out : List ℚ}
    (h : sliceAdd buf s smp = .ok out) : out.length = buf.length := by
  unfold sliceAdd at h
  split at h
  · simp only [Except.ok.injEq] at h; subst h; rfl
  · split at h
    · simp only [Except.ok.injEq] at h; subst h; simp
    · exact absurd h (by simp)

theorem sliceAdd_ok_getD {buf : List ℚ} {s : ℕ} {smp : List ℤ} {out : List ℚ}
    (h : sliceAdd buf s smp = .ok out) (i : ℕ) :
    out.getD i 0 = buf.getD i 0 +
      (if s ≤ i ∧ i < s + smp.length then ((smp.getD (i - s) 0 : ℤ) : ℚ) else 0) := by
  unfold sliceAdd at h
  split at h
  · rename_i hsmp
    simp only [Except.ok.injEq] at h; subst h
    rw [if_neg (by simp [hsmp]), add_zero]
  · split at h
    · rename_i hsmp hle
      simp only [Except.ok.injEq] at h; subst h
      by_cases hi : i < buf.length
      · rw [getD_lt (by simpa using hi)]
        rw [List.getElem_map, List.getElem_range]
        split
        · rfl
        · rw [add_zero]
      · have h1 : buf.length ≤ i := not_lt.mp hi
        rw [getD_ge (by simpa using h1), getD_ge h1]
        rw [if_neg (by intro hcon; omega), add_zero]
    · exact absurd h (by simp)

theorem sliceAdd_of_le {buf : List ℚ} {s : ℕ} {smp : List ℤ}
    (h : s + smp.length ≤ buf.length) : ∃ out, sliceAdd buf s smp = .ok out := by
  unfold sliceAdd
  by_cases hsmp : smp = []
  · rw [if_pos hsmp]; exact ⟨buf, rfl⟩
  · rw [if_neg hsmp, if_pos h]; exact ⟨_, rfl⟩

theorem mixLoop_ok_length {sinq : ℚ → ℚ} {sr : ℚ} :
    ∀ {ts : List Track} {buf out : List ℚ},
      mixLoop sinq sr ts buf = .ok out → out.length = buf.length := by
  intro ts
  induction ts with
  | nil =>
      intro buf out h
      simp only [mixLoop, Except.ok.injEq] at h; subst h; rfl
  | cons t ts ih =>
      intro buf out h
      simp only [mixLoop] at h
      cases hgsw : generate_sine_wave sinq sr t.frequency t.duration
          (32767 * (t.velocity / 127)) with
      | error e => simp only [hgsw] at h; exact absurd h (by simp)
      | ok samples =>
          simp only [hgsw] at h
          cases hsa : sliceAdd buf (pyInt (t.start_time * sr)).toNat samples with
          | error e => simp only [hsa] at h; exact absurd h (by simp)
          | ok buf2 =>
              simp only [hsa] at h
              rw [ih h, sliceAdd_ok_length hsa]

theorem mixLoop_ok_getD {sinq : ℚ → ℚ} {sr : ℚ} :
    ∀ {ts : List Track} {buf out : List ℚ},
      mixLoop sinq sr ts buf = .ok out → ∀ i : ℕ,
        out.getD i 0 = buf.getD i 0 + ((ts.map fun t => trackContrib sinq sr t i)).sum := by
  intro ts
  induction ts with
  | nil =>
      intro buf out h i
      simp only [mixLoop, Except.ok.injEq] at h; subst h; simp
  | cons t ts ih =>
      intro buf out h i
      simp only [mixLoop] at h
      cases hgsw : generate_sine_wave sinq sr t.frequency t.duration
          (32767 * (t.velocity / 127)) with
      | error e => simp only [hgsw] at h; exact absurd h (by simp)
      | ok samples =>
          simp only [hgsw] at h
          cases hsa : sliceAdd buf (pyInt (t.start_time * sr)).toNat samples with
          | error e => simp only [hsa] at h; exact absurd h (by simp)
          | ok buf2 =>
              simp only [hsa] at h
              have hsam : samples =
                  sineSamples sinq sr t.frequency t.duration (32767 * (t.velocity / 127)) := by
                unfold generate_sine_wave at hgsw
                split at hgsw
                · exact absurd hgsw (by simp)
                · simp only [Except.ok.injEq] at hgsw; exact hgsw.symm
              have h2 := sliceAdd_ok_getD hsa i
              rw [ih h i, h2, hsam]
              simp only [List.map_cons, List.sum_cons, trackContrib]
              ring

theorem mixLoop_of_bounds {sinq : ℚ → ℚ} {sr : ℚ} :
    ∀ {ts : List Track} {buf : List ℚ},
      (∀ t ∈ ts, 0 ≤ pyInt (sr * t.duration) ∧
        (pyInt (t.start_time * sr)).toNat + (pyInt (sr * t.duration)).toNat ≤ buf.length) →
      ∃ out, mixLoop sinq sr ts buf = .ok out := by
  intro ts
  induction ts with
  | nil => intro buf _; exact ⟨buf, rfl⟩
  | cons t ts ih =>
      intro buf hb
      obtain ⟨h0, hfit⟩ := hb t (by simp)
      have hgsw : generate_sine_wave sinq sr t.frequency t.duration
          (32767 * (t.velocity / 127)) =
          .ok (sineSamples sinq sr t.frequency t.duration (32767 * (t.velocity / 127))) := by
        unfold generate_sine_wave
        rw [if_neg (not_lt.mpr h0)]
      obtain ⟨buf2, hsa⟩ := @sliceAdd_of_le buf (pyInt (t.start_time * sr)).toNat
        (sineSamples sinq sr t.frequency t.duration (32767 * (t.velocity / 127)))
        (by rw [sineSamples_length]; exact hfit)
      obtain ⟨out, hout⟩ := @ih buf2 (by
        intro u hu
        rw [sliceAdd_ok_length hsa]
        exact hb u (by simp [hu]))
      refine ⟨out, ?_⟩
      simp only [mixLoop, hgsw, hsa]
      exact hout

theorem init_le_foldl_max : ∀ (m : List ℚ) (a : ℚ), a ≤ m.foldl max a
  | [], a => le_refl a
  | b :: m, a => le_trans (le_max_left a b) (init_le_foldl_max m (max a b))

theorem mem_le_foldl_max : ∀ {m : List ℚ} {y : ℚ} (a : ℚ), y ∈ m → y ≤ m.foldl max a := by
  intro m
  induction m with
  | nil => intro y a h; exact absurd h (by simp)
  | cons b m ih =>
      intro y a h
      rcases List.mem_cons.mp h with h | h
      · subst h
        exact le_trans (le_max_right a y) (init_le_foldl_max m (max a y))
      · exact ih (max a b) h

theorem le_npMaxAbs {l : List ℚ} {x : ℚ} (hx : x ∈ l) : |x| ≤ npMaxAbs l := by
  unfold npMaxAbs
  exact mem_le_foldl_max _ (List.mem_map.mpr ⟨x, hx, rfl⟩)

theorem le_pyMaxList {l : List ℚ} {x : ℚ} (hx : x ∈ l) : x ≤ pyMaxList l := by
  unfold pyMaxList
  exact mem_le_foldl_max _ hx

theorem getD_replicate_zero (n i : ℕ) : (List.replicate n (0:ℚ)).getD i 0 = 0 := by
  rw [List.getD_eq_getElem?_getD, List.getElem?_replicate]
  split <;> rfl

theorem trackContrib_int (sinq : ℚ → ℚ) (sr : ℚ) (t : Track) (i : ℕ) :
    ∃ z : ℤ, trackContrib sinq sr t i = (z : ℚ) := by
  unfold trackContrib
  simp only []
  split
  · exact ⟨_, rfl⟩
  · exact ⟨0, by norm_num⟩

theorem sum_int : ∀ l : List ℚ, (∀ x ∈ l, ∃ z : ℤ, x = (z : ℚ)) →
    ∃ z : ℤ, l.sum = (z : ℚ) := by
  intro l
  induction l with
  | nil => intro _; exact ⟨0, by simp⟩
  | cons a l ih =>
      intro h
      obtain ⟨za, ha⟩ := h a (by simp)
      obtain ⟨zl, hl⟩ := ih fun x hx => h x (by simp [hx])
      refine ⟨za + zl, ?_⟩
      rw [List.sum_cons, ha, hl]
      push_cast
      ring

theorem intEntries_mem {l : List ℚ} (h : intEntries l) {x : ℚ} (hx : x ∈ l) :
    ∃ z : ℤ, x = (z : ℚ) := by
  obtain ⟨i, hi, rfl⟩ := List.getElem_of_mem hx
  obtain ⟨z, hz⟩ := h i
  rw [getD_lt hi] at hz
  exact ⟨z, hz⟩

/-- Master lemma about a successful float mix: the input was nonempty, the
buffer has exactly `totalSamples` entries, each position reads as the sum
of the per-track contributions, and every entry is an integer value. -/
theorem mixTracksFloat_ok {sinq : ℚ → ℚ} {sr : ℚ} {tracks : List Track} {mixed : List ℚ}
    (h : mixTracksFloat sinq sr tracks = .ok mixed) :
    tracks ≠ [] ∧ mixed.length = totalSamples sr tracks ∧
    (∀ i : ℕ, mixed.getD i 0 = ((tracks.map fun t => trackContrib sinq sr t i)).sum) ∧
    intEntries mixed := by
  unfold mixTracksFloat at h
  split at h
  · exact absurd h (by simp)
  · rename_i hne
    have hsum : ∀ i : ℕ,
        mixed.getD i 0 = ((tracks.map fun t => trackContrib sinq sr t i)).sum := by
      intro i
      rw [mixLoop_ok_getD h i, getD_replicate_zero, zero_add]
    refine ⟨hne, ?_, hsum, ?_⟩
    · rw [mixLoop_ok_length h, List.length_replicate]
    · intro i
      rw [hsum i]
      apply sum_int
      intro x hx
      obtain ⟨t, ht, rfl⟩ := List.mem_map.mp hx
      exact trackContrib_int sinq sr t i

/-!
## Claim C2 — layout of the mixed buffer

The claim asserts a total length of `ceil(sampleRate · max(...))` samples
and per-track offsets of `round(start_time · sampleRate)`.  The code
(`synthesizer_backend.py`, lines 96 and 103) uses Python `int(...)`, which
truncates toward zero, for both — not `ceil` and not `round`.
-/

/-- Claim C2, counterexample: at `sampleRate = 2` a single track of
duration `3/4` starting at 0 yields a buffer of
`int(2 * 3/4) = 1` sample, while the claim's formula
`ceil(2 * (0 + 3/4)) = 2` predicts two samples. -/
theorem c2_counterexample_length_truncates :
    (∃ out, generate_multi_track sinqZero 2 [⟨440, 3/4, 127, 0⟩] = .ok out ∧
      out.length = 1) ∧
    (⌈(2:ℚ) * ((0:ℚ) + 3/4)⌉ : ℤ) = 2 := by
  constructor
  · exact ⟨[0], by with_unfolding_all rfl, rfl⟩
  · with_unfolding_all rfl

/-- Claim C2 (amended): for every successful float mix, the buffer has
exactly `int(sampleRate · max(start_time + duration))` samples (truncation
toward zero, not `ceil`), and every sample is the sum over the tracks of
their contributions — the `int16` tone generated at amplitude
`32767 · (velocity / 127)`, placed at offset
`int(start_time · sampleRate)` (truncation, not `round`). -/
theorem c2_amended_mix_layout (sinq : ℚ → ℚ) (sr : ℚ) (tracks : List Track)
    (mixed : List ℚ) (hok : mixTracksFloat sinq sr tracks = .ok mixed) :
    mixed.length =
      (pyInt (sr * pyMaxList (tracks.map fun t => t.start_time + t.duration))).toNat ∧
    ∀ i : ℕ, mixed.getD i 0 = ((tracks.map fun t => trackContrib sinq sr t i)).sum := by
  obtain ⟨-, hlen, hsum, -⟩ := mixTracksFloat_ok hok
  rw [totalSamples] at hlen
  exact ⟨hlen, hsum⟩

/-- Claim C2, witness for the amended theorem at a concrete input. -/
theorem c2_amended_witness :
    ([(0:ℚ)].length =
      (pyInt ((2:ℚ) * pyMaxList (([⟨440, 3/4, 127, 0⟩] : List Track).map
        fun t => t.start_time + t.duration))).toNat) ∧
    ∀ i : ℕ, ([(0:ℚ)]).getD i 0 =
      ((([⟨440, 3/4, 127, 0⟩] : List Track).map
        fun t => trackContrib sinqZero 2 t i)).sum :=
  c2_amended_mix_layout sinqZero 2 [⟨440, 3/4, 127, 0⟩] [0] (by with_unfolding_all rfl)

/-!
## Claim C3 — range invariant and exactness of the normalization stage

Confirmed.  Because each track's tone is cast to `int16` *before*
accumulation (`synthesizer_backend.py`, line 78), the float mix holds
integer values; when its peak is at most 32767 the final `int16` cast
reproduces it exactly, and when the peak exceeds 32767 the scaled values
stay within `[-32767, 32767]`.
-/

/-- Claim C3: for a successful (nonempty) mix, the output exists, every
output sample lies in `[-32768, 32767]`; when the unnormalized peak is at
most 32767 the output equals the unnormalized float sum exactly (no
scaling); and scaling by `32767/peak` happens exactly when the peak
exceeds 32767. -/
theorem c3_output_in_range_and_exact (sinq : ℚ → ℚ) (sr : ℚ) (tracks : List Track)
    (mixed : List ℚ) (hok : mixTracksFloat sinq sr tracks = .ok mixed)
    (hne : mixed ≠ []) :
    ∃ out, generate_multi_track sinq sr tracks = .ok out ∧
      (∀ x ∈ out, -32768 ≤ x ∧ x ≤ 32767) ∧
      (npMaxAbs mixed ≤ 32767 → out.map (fun z : ℤ => (z : ℚ)) = mixed) ∧
      (32767 < npMaxAbs mixed →
        out = (mixed.map fun x => x / npMaxAbs mixed * 32767).map i16) := by
  have hint := (mixTracksFloat_ok hok).2.2.2
  by_cases hpeak : 32767 < npMaxAbs mixed
  · refine ⟨(mixed.map fun x => x / npMaxAbs mixed * 32767).map i16, ?_, ?_, ?_, ?_⟩
    · simp only [generate_multi_track, hok, if_neg hne]
      rw [if_pos hpeak]
    · intro x hx
      obtain ⟨y, hy, rfl⟩ := List.mem_map.mp hx
      exact i16_bounds y
    · intro hle; exact absurd hpeak (not_lt.mpr hle)
    · intro _; rfl
  · push_neg at hpeak
    refine ⟨mixed.map i16, ?_, ?_, ?_, ?_⟩
    · simp only [generate_multi_track, hok, if_neg hne]
      rw [if_neg (not_lt.mpr hpeak)]
    · intro x hx
      obtain ⟨y, hy, rfl⟩ := List.mem_map.mp hx
      exact i16_bounds y
    · intro _
      have hcast : ∀ x ∈ mixed, ((i16 x : ℤ) : ℚ) = x := by
        intro x hx
        obtain ⟨z, rfl⟩ := intEntries_mem hint hx
        have habs : |(z:ℚ)| ≤ ((32767 : ℤ) : ℚ) := by
          calc |(z:ℚ)| ≤ npMaxAbs mixed := le_npMaxAbs hx
            _ ≤ 32767 := hpeak
            _ = ((32767 : ℤ) : ℚ) := by norm_num
        have hzb := pyInt_abs_le (by norm_num) habs
        rw [pyInt_intCast] at hzb
        rw [i16_intCast (by omega) (by omega)]
      calc (mixed.map i16).map (fun z : ℤ => (z : ℚ))
            = mixed.map (fun x => ((i16 x : ℤ) : ℚ)) := by
              rw [List.map_map]; rfl
        _ = mixed.map id := List.map_congr_left hcast
        _ = mixed := List.map_id mixed
    · intro hgt; exact absurd hgt (not_lt.mpr hpeak)

/-- Claim C3, witness: a concrete single-track mix whose float buffer is
`[16383, 16383, 16383, 16383]` (peak below 32767, reproduced exactly). -/
theorem c3_witness :
    ∃ out, generate_multi_track (fun _ => 1/2) 4 [⟨1, 1, 127, 0⟩] = .ok out ∧
      (∀ x ∈ out, -32768 ≤ x ∧ x ≤ 32767) ∧
      (npMaxAbs [16383, 16383, 16383, 16383] ≤ 32767 →
        out.map (fun z : ℤ => (z : ℚ)) = [16383, 16383, 16383, 16383]) ∧
      (32767 < npMaxAbs [16383, 16383, 16383, 16383] →
        out = (([16383, 16383, 16383, 16383] : List ℚ).map
          fun x => x / npMaxAbs [16383, 16383, 16383, 16383] * 32767).map i16) :=
  c3_output_in_range_and_exact (fun _ => 1/2) 4 [⟨1, 1, 127, 0⟩]
    [16383, 16383, 16383, 16383] (by with_unfolding_all rfl) (by simp)

/-!
## Claim C10 — per-track write regions stay inside the buffer

Confirmed.  For nonnegative start times, durations and sample rate,
`int(start·sr) + int(sr·dur) ≤ int(sr·max(start+dur))` because
`floor a + floor b ≤ floor (a + b)` and the floor is monotone, so every
slice assignment of the mixing loop is in bounds and the whole loop
succeeds without truncating any track.
-/

/-- Claim C10: with a nonempty track list, nonnegative start times and
durations, and a nonnegative sample rate, every track's write region
`[int(start·sr), int(start·sr) + int(sr·dur))` lies inside the output
buffer of length `int(sr · max(start + dur))`, and the float mixing loop
succeeds (no broadcast error, no truncated track). -/
theorem c10_write_regions_in_bounds (sinq : ℚ → ℚ) (sr : ℚ) (tracks : List Track)
    (hs : ∀ t ∈ tracks, 0 ≤ t.start_time ∧ 0 ≤ t.duration) (hsr : 0 ≤ sr)
    (hne : tracks ≠ []) :
    (∀ t ∈ tracks,
      (pyInt (t.start_time * sr)).toNat +
        (sineSamples sinq sr t.frequency t.duration (32767 * (t.velocity / 127))).length ≤
        totalSamples sr tracks) ∧
    ∃ mixed, mixTracksFloat sinq sr tracks = .ok mixed ∧
      mixed.length = totalSamples sr tracks := by
  have hbound : ∀ t ∈ tracks, 0 ≤ pyInt (sr * t.duration) ∧
      (pyInt (t.start_time * sr)).toNat + (pyInt (sr * t.duration)).toNat ≤
        totalSamples sr tracks := by
    intro t ht
    obtain ⟨hst, hd⟩ := hs t ht
    refine ⟨?_, ?_⟩
    · rw [pyInt_of_nonneg (mul_nonneg hsr hd)]
      exact Int.floor_nonneg.mpr (mul_nonneg hsr hd)
    · unfold totalSamples
      have hmax : t.start_time + t.duration ≤
          pyMaxList (tracks.map fun t => t.start_time + t.duration) :=
        le_pyMaxList (List.mem_map.mpr ⟨t, ht, rfl⟩)
      apply pyInt_toNat_add_le (mul_nonneg hst hsr) (mul_nonneg hsr hd)
      calc t.start_time * sr + sr * t.duration
            = sr * (t.start_time + t.duration) := by ring
        _ ≤ sr * pyMaxList (tracks.map fun t => t.start_time + t.duration) :=
            mul_le_mul_of_nonneg_left hmax hsr
  constructor
  · intro t ht
    rw [sineSamples_length]
    exact (hbound t ht).2
  · obtain ⟨mixed, hml⟩ := @mixLoop_of_bounds sinq sr tracks
      (List.replicate (totalSamples sr tracks) 0) (by
        intro t ht
        rw [List.length_replicate]
        exact hbound t ht)
    refine ⟨mixed, ?_, ?_⟩
    · unfold mixTracksFloat
      rw [if_neg hne]
      exact hml
    · rw [mixLoop_ok_length hml, List.length_replicate]

/-- Claim C10, witness at a concrete input. -/
theorem c10_witness :
    (∀ t ∈ ([⟨1, 1, 127, 0⟩] : List Track),
      (pyInt (t.start_time * 2)).toNat +
        (sineSamples sinqZero 2 t.frequency t.duration (32767 * (t.velocity / 127))).length ≤
        totalSamples 2 [⟨1, 1, 127, 0⟩]) ∧
    ∃ mixed, mixTracksFloat sinqZero 2 [⟨1, 1, 127, 0⟩] = .ok mixed ∧
      mixed.length = totalSamples 2 [⟨1, 1, 127, 0⟩] :=
  c10_write_regions_in_bounds sinqZero 2 [⟨1, 1, 127, 0⟩]
    (by intro t ht; simp only [List.mem_singleton] at ht; subst ht; constructor <;> norm_num)
    (by norm_num) (by simp)

/-!
## Claim C6 — spectrum normalization has no zero guard

The claim asserts that division by the maximum happens only when the
maximum is nonzero, and that an all-zero magnitude list comes back as all
zeros.  The code (`synthesizer_backend.py`, line 160) divides
unconditionally: on an all-zero spectrum NumPy computes `0 / 0`, which is
`nan`, not `0`.
-/

theorem foldl_max_of_le : ∀ (m : List ℚ) (a : ℚ), (∀ x ∈ m, x ≤ a) → m.foldl max a = a
  | [], _, _ => rfl
  | b :: m, a, h => by
      rw [List.foldl_cons, max_eq_left (h b (by simp))]
      exact foldl_max_of_le m a fun x hx => h x (by simp [hx])

theorem pyMaxList_all_zero {l : List ℚ} (hne : l ≠ []) (hz : ∀ x ∈ l, x = 0) :
    pyMaxList l = 0 := by
  cases l with
  | nil => exact absurd rfl hne
  | cons a m =>
      unfold pyMaxList
      rw [List.headD_cons, hz a (by simp)]
      exact foldl_max_of_le (0 :: m) 0 fun x hx => by
        rcases List.mem_cons.mp hx with h | h
        · exact le_of_eq h
        · exact le_of_eq (hz x (by simp [h]))

/-- Claim C6, counterexample: the all-zero magnitude list `[0, 0]`
normalizes to `[nan, nan]` (an unconditional `0 / 0`), not to the all-zero
list the claim requires. -/
theorem c6_counterexample_zero_spectrum_is_nan :
    normalizeMagnitude [0, 0] = [.nan, .nan] ∧ PyFloat.nan ≠ PyFloat.fin 0 :=
  ⟨by with_unfolding_all rfl, by simp⟩

/-- Claim C6 (amended): the normalization divides by the maximum
unconditionally.  When the maximum is positive every entry becomes the
exact quotient; when the list is all zeros (maximum 0) every entry becomes
`0 / 0 = nan` — there is no guard producing zeros. -/
theorem c6_amended_unconditional_division (mags : List ℚ) :
    (0 < pyMaxList mags →
      normalizeMagnitude mags = mags.map fun x => .fin (x / pyMaxList mags)) ∧
    (mags ≠ [] → (∀ x ∈ mags, x = 0) →
      normalizeMagnitude mags = mags.map fun _ => PyFloat.nan) := by
  constructor
  · intro h
    unfold normalizeMagnitude
    apply List.map_congr_left
    intro x _
    unfold pydiv
    rw [if_pos (ne_of_gt h)]
  · intro hne hz
    have hmax := pyMaxList_all_zero hne hz
    unfold normalizeMagnitude
    apply List.map_congr_left
    intro x hx
    rw [hz x hx, hmax]
    unfold pydiv
    simp

/-- Claim C6, witness for the amended theorem: a positive-maximum list is
divided through; the all-zero list `[0, 0]` becomes all `nan`. -/
theorem c6_amended_witness :
    normalizeMagnitude [1, 2] = ([1, 2] : List ℚ).map (fun x => .fin (x / pyMaxList [1, 2])) ∧
    normalizeMagnitude [0, 0] = ([0, 0] : List ℚ).map fun _ => PyFloat.nan :=
  ⟨(c6_amended_unconditional_division [1, 2]).1
      (by rw [show pyMaxList [1, 2] = 2 from by with_unfolding_all rfl]; norm_num),
   (c6_amended_unconditional_division [0, 0]).2 (by simp) (by simp)⟩

/-!
## Claim C9 — error handling of `verify_frequency_accuracy`

The claim asserts an `EmptyInput` failure on an empty peak list and an
`InvalidParameter` failure on `expectedFrequency = 0`.  The code
(`synthesizer_backend.py`, lines 251-281) has neither check: an empty peak
list makes `np.argmin` raise its generic `ValueError`, and
`expected_freq = 0` raises nothing at all — NumPy float division by zero
produces `inf` (or `nan`) with a warning, and a `VerificationResult` with
`is_accurate = False` is returned.
-/

theorem pydiv_zero_not_le {a tol : ℚ} (ha : 0 ≤ a) :
    (pydiv a 0).le (.fin tol) = false := by
  unfold pydiv
  rcases ha.lt_or_eq with h | h
  · rw [if_neg (by simp), if_pos h]; rfl
  · rw [← h]; simp; rfl

theorem pydiv_zero_nonfinite {a : ℚ} (ha : 0 ≤ a) :
    pydiv a 0 = .inf ∨ pydiv a 0 = .nan := by
  unfold pydiv
  rcases ha.lt_or_eq with h | h
  · left; rw [if_neg (by simp), if_pos h]
  · right; rw [← h]; simp

/-- Claim C9, counterexample: the empty peak list produces the `ValueError`
of `np.argmin` (not `EmptyInput`), and `expectedFrequency = 0` produces a
fully-formed `VerificationResult` with infinite error (not an
`InvalidParameter` failure). -/
theorem c9_counterexample_error_kinds :
    verify_frequency_accuracy [] 440 (2/100) =
      .error (.valueError "attempt to get argmin of an empty sequence") ∧
    verify_frequency_accuracy [] 440 (2/100) ≠ .error SynthError.emptyInput ∧
    verify_frequency_accuracy [440] 0 (2/100) =
      .ok { expected_frequency := 0, detected_frequency := 440,
            error_percent := .inf, is_accurate := false, tolerance_percent := 2 } ∧
    verify_frequency_accuracy [440] 0 (2/100) ≠ .error SynthError.invalidParameter := by
  have h1 : verify_frequency_accuracy [] 440 (2/100) =
      .error (.valueError "attempt to get argmin of an empty sequence") := rfl
  have h2 : verify_frequency_accuracy [440] 0 (2/100) =
      .ok { expected_frequency := 0, detected_frequency := 440,
            error_percent := .inf, is_accurate := false, tolerance_percent := 2 } := by
    with_unfolding_all rfl
  exact ⟨h1, by rw [h1]; simp, h2, by rw [h2]; simp⟩

/-- Claim C9 (amended): an empty peak list fails with the `ValueError`
raised by `np.argmin` (there is no `EmptyInput` kind), and
`expectedFrequency = 0` does not fail at all: a `VerificationResult` is
returned whose error is non-finite (`inf`, or `nan` when the detected peak
is also 0) and whose `is_accurate` is false. -/
theorem c9_amended_errors (peaks : List ℚ) (e tol : ℚ) :
    (peaks = [] → verify_frequency_accuracy peaks e tol =
      .error (.valueError "attempt to get argmin of an empty sequence")) ∧
    (peaks ≠ [] → e = 0 → ∃ r, verify_frequency_accuracy peaks e tol = .ok r ∧
      r.is_accurate = false ∧
      (r.error_percent = PyFloat.inf ∨ r.error_percent = PyFloat.nan)) := by
  constructor
  · intro h
    rw [verify_frequency_accuracy, if_pos h]
  · intro hne h0
    subst h0
    unfold verify_frequency_accuracy
    rw [if_neg hne]
    refine ⟨_, rfl, ?_, ?_⟩
    · show (pydiv |peaks.getD (npArgmin (peaks.map fun p => |p - 0|)) 0 - 0| 0).le
        (.fin tol) = false
      rw [sub_zero]
      exact pydiv_zero_not_le (abs_nonneg _)
    · show ((pydiv |peaks.getD (npArgmin (peaks.map fun p => |p - 0|)) 0 - 0| 0).mulPos 100)
        = PyFloat.inf ∨ _ = PyFloat.nan
      rw [sub_zero]
      rcases pydiv_zero_nonfinite
        (a := |peaks.getD (npArgmin (peaks.map fun p => |p - 0|)) 0|) (abs_nonneg _) with
        h | h
      · left; rw [h]; rfl
      · right; rw [h]; rfl

/-- Claim C9, witness for the amended theorem at concrete inputs. -/
theorem c9_amended_witness :
    verify_frequency_accuracy [] 440 (2/100) =
      .error (.valueError "attempt to get argmin of an empty sequence") ∧
    ∃ r, verify_frequency_accuracy [440] 0 (2/100) = .ok r ∧
      r.is_accurate = false ∧
      (r.error_percent = PyFloat.inf ∨ r.error_percent = PyFloat.nan) :=
  ⟨(c9_amended_errors [] 440 (2/100)).1 rfl,
   (c9_amended_errors [440] 0 (2/100)).2 (by simp) rfl⟩

/-!
## Claim C5 — emitted pitch range of the extractor

The claim asserts emitted fundamental frequencies in `(50, 2000]` Hz with
the lag searched in `[sampleRate/2000, sampleRate/50]`.  The code
(`audio_processor.py`, lines 96-110) uses the *floor* divisions
`min_period = sr // 2000` and `max_period = sr // 50` and the slice
`autocorr[min_period:max_period]`, whose upper end is exclusive.  The lag
can therefore be as small as `sr // 2000 < sr / 2000`, and the emitted
frequency `sr / lag` can exceed 2000 Hz (e.g. `44100 / 22 ≈ 2004.5` at the
default rate, or `2001 / 1 = 2001` at `sr = 2001`).
-/

theorem npArgmaxGo_lt : ∀ (xs : List ℚ) (bv : ℚ) (best i : ℕ), best < i →
    npArgmaxGo xs bv best i < i + xs.length := by
  intro xs
  induction xs with
  | nil => intro bv best i h; simpa [npArgmaxGo] using h
  | cons x xs ih =>
      intro bv best i h
      unfold npArgmaxGo
      split
      · have h2 := ih x i (i + 1) (by omega)
        simp only [List.length_cons]
        omega
      · have h2 := ih bv best (i + 1) (by omega)
        simp only [List.length_cons]
        omega

theorem npArgmax_lt_length {l : List ℚ} (h : l ≠ []) : npArgmax l < l.length := by
  cases l with
  | nil => exact absurd rfl h
  | cons x xs =>
      have h2 := npArgmaxGo_lt xs x 0 1 (by omega)
      simp only [npArgmax, List.length_cons]
      omega

/-- A positive estimate of `_get_dominant_frequency` is `sr / lag` for a
lag in the half-open range `[sr // 2000, min(sr // 50, n - 1))` searched
by the code. -/
theorem gdf_pos_characterization (window segment : List ℚ) (sr : ℕ)
    (h : 0 < _get_dominant_frequency window segment sr) :
    ∃ lag : ℕ, sr / 2000 ≤ lag ∧ lag < sr / 50 ∧
      _get_dominant_frequency window segment sr = (sr : ℚ) / (lag : ℚ) := by
  by_cases hlen : segment.length < 2
  · rw [_get_dominant_frequency, if_pos hlen] at h
    exact absurd h (lt_irrefl 0)
  · by_cases hge : sr / 2000 ≥ gdfMaxPeriod window segment sr
    · rw [_get_dominant_frequency, if_neg hlen, if_pos hge] at h
      exact absurd h (lt_irrefl 0)
    · by_cases hpk : 0 < gdfPeakIdx window segment sr
      · have hlt : sr / 2000 < gdfMaxPeriod window segment sr := not_le.mp hge
        have hmaxle : gdfMaxPeriod window segment sr ≤
            (gdfAutocorr window segment).length := by
          unfold gdfMaxPeriod
          split <;> omega
        have hmax50 : gdfMaxPeriod window segment sr ≤ sr / 50 := by
          unfold gdfMaxPeriod
          split <;> omega
        have hslice : (((gdfAutocorr window segment).drop (sr / 2000)).take
            (gdfMaxPeriod window segment sr - sr / 2000)).length =
            gdfMaxPeriod window segment sr - sr / 2000 := by
          rw [List.length_take, List.length_drop, Nat.min_eq_left (by omega)]
        have hne2 : ((gdfAutocorr window segment).drop (sr / 2000)).take
            (gdfMaxPeriod window segment sr - sr / 2000) ≠ [] := by
          intro hc
          rw [hc] at hslice
          simp only [List.length_nil] at hslice
          omega
        have harg := npArgmax_lt_length hne2
        rw [hslice] at harg
        refine ⟨gdfPeakIdx window segment sr, ?_, ?_, ?_⟩
        · unfold gdfPeakIdx
          exact Nat.le_add_right _ _
        · unfold gdfPeakIdx
          unfold gdfPeakIdx at hpk
          omega
        · rw [_get_dominant_frequency, if_neg hlen, if_neg hge, if_pos hpk]
      · rw [_get_dominant_frequency, if_neg hlen, if_neg hge, if_neg hpk] at h
        exact absurd h (lt_irrefl 0)

/-- A positive estimate lies in `(50, sr / (sr // 2000)]` when
`sr ≥ 2000`; the upper end exceeds 2000 Hz whenever 2000 does not divide
`sr`. -/
theorem gdf_pos_bounds (window segment : List ℚ) (sr : ℕ) (hsr : 2000 ≤ sr)
    (h : 0 < _get_dominant_frequency window segment sr) :
    50 < _get_dominant_frequency window segment sr ∧
    _get_dominant_frequency window segment sr ≤ (sr : ℚ) / ((sr / 2000 : ℕ) : ℚ) := by
  obtain ⟨lag, h1, h2, heq⟩ := gdf_pos_characterization window segment sr h
  have hmin1 : 1 ≤ sr / 2000 := by omega
  have hlag1 : 1 ≤ lag := le_trans hmin1 h1
  have hlagQ : (0:ℚ) < (lag : ℚ) := by exact_mod_cast by omega
  constructor
  · rw [heq, lt_div_iff₀ hlagQ]
    have h50 : sr / 50 * 50 ≤ sr := Nat.div_mul_le_self sr 50
    have hmul : 50 * lag < sr := by omega
    calc (50:ℚ) * (lag : ℚ) = ((50 * lag : ℕ) : ℚ) := by push_cast; ring
      _ < (sr : ℚ) := by exact_mod_cast hmul
  · rw [heq]
    have ha : (0:ℚ) < (sr : ℚ) := by exact_mod_cast by omega
    have hc : (0:ℚ) < ((sr / 2000 : ℕ) : ℚ) := by exact_mod_cast by omega
    exact (div_le_div_iff_of_pos_left ha hlagQ hc).mpr (by exact_mod_cast h1)

/-- Claim C5, counterexample: at `sr = 2001` (an `AudioProcessor(sr=2001)`
instantiation) the 5-sample recording `[0, 2, 2, 2, 0]` with a single
onset at 0 emits exactly one track whose frequency is `2001 / 1 = 2001 Hz
> 2000` — the autocorrelation (Hann-windowed: `[0, 1, 2, 1, 0]`) peaks at
lag `min_period = 2001 // 2000 = 1` inside the searched range. -/
theorem c5_counterexample_frequency_above_2000 :
    _extract_tracks hannRat5 [0, 2, 2, 2, 0] 2001 [0] =
      [{ frequency := 2001, duration := 5/2001, velocity := 100, startTime := 0 }] ∧
    ¬((2001 : ℚ) ≤ 2000) :=
  ⟨by with_unfolding_all rfl, by norm_num⟩

/-- Claim C5 (amended): every track emitted by the extractor (at
`sampleRate ≥ 2000`) has frequency `sampleRate / lag` for a lag in the
half-open floor-division range `[sr // 2000, sr // 50)` — upper bound
exclusive, after clamping to the autocorrelation length — hence the
frequency lies in `(50, sr / (sr // 2000)]`, an interval whose upper end
can exceed 2000 Hz (it is `2004.54...` at the default `sr = 44100`). -/
theorem c5_amended_pitch_range (hann : ℕ → List ℚ) (y : List ℚ) (sr : ℕ)
    (onsets : List ℚ) (hsr : 2000 ≤ sr) :
    ∀ tr ∈ _extract_tracks hann y sr onsets,
      ∃ lag : ℕ, sr / 2000 ≤ lag ∧ lag < sr / 50 ∧
        tr.frequency = (sr : ℚ) / (lag : ℚ) ∧ 50 < tr.frequency ∧
        tr.frequency ≤ (sr : ℚ) / ((sr / 2000 : ℕ) : ℚ) := by
  induction onsets with
  | nil =>
      intro tr htr
      simp [_extract_tracks] at htr
  | cons onset rest ih =>
      intro tr htr
      simp only [_extract_tracks] at htr
      split at htr
      · rename_i hpos
        rcases List.mem_cons.mp htr with h | h
        · subst h
          obtain ⟨lag, h1, h2, heq⟩ := gdf_pos_characterization _ _ sr hpos
          obtain ⟨h3, h4⟩ := gdf_pos_bounds _ _ sr hsr hpos
          exact ⟨lag, h1, h2, heq, h3, h4⟩
        · exact ih tr h
      · exact ih tr htr

/-- Claim C5, witness for the amended theorem: the emitted `2001 Hz` track
of the counterexample input satisfies the amended range (its lag is
`1 = 2001 // 2000`, and `2001 ≤ 2001 / (2001 // 2000)`). -/
theorem c5_amended_witness :
    ∃ lag : ℕ, 2001 / 2000 ≤ lag ∧ lag < 2001 / 50 ∧
      (PTrack.mk 2001 (5/2001) 100 0).frequency = ((2001 : ℕ) : ℚ) / (lag : ℚ) ∧
      50 < (PTrack.mk 2001 (5/2001) 100 0).frequency ∧
      (PTrack.mk 2001 (5/2001) 100 0).frequency ≤
        ((2001 : ℕ) : ℚ) / ((2001 / 2000 : ℕ) : ℚ) :=
  c5_amended_pitch_range hannRat5 [0, 2, 2, 2, 0] 2001 [0] (by norm_num)
    (PTrack.mk 2001 (5/2001) 100 0)
    (by rw [show _extract_tracks hannRat5 [0, 2, 2, 2, 0] 2001 [0] =
          [PTrack.mk 2001 (5/2001) 100 0] from by with_unfolding_all rfl]
        exact List.mem_singleton.mpr rfl)

/-!
## Claim C7 — peak selection of `compute_fft`

The claim describes the 50-bin minimum separation as enforced by a greedy
left-to-right scan.  The code delegates to
`scipy.signal.find_peaks(height=0.1, distance=50)`, whose distance rule
processes peaks from highest to lowest and discards neighbours of kept
peaks — so in a cluster the *tallest* peak survives, not the leftmost.
-/

theorem getD_of_lt {α : Type} {l : List α} {i : ℕ} {d : α} (h : i < l.length) :
    l.getD i d = l[i] := by
  simp [List.getD_eq_getElem?_getD, List.getElem?_eq_getElem h]

theorem foldl_distStep_mono (peaks : List ℕ) (d : ℕ) :
    ∀ (os : List ℕ) (keep : ℕ → Bool) (k : ℕ),
      (os.foldl (distStep peaks d) keep) k = true → keep k = true := by
  intro os
  induction os with
  | nil => intro keep k h; exact h
  | cons j os ih =>
      intro keep k h
      rw [List.foldl_cons] at h
      have h2 := ih (distStep peaks d keep j) k h
      unfold distStep at h2
      split at h2
      · dsimp only at h2
        split at h2
        · exact absurd h2 (by simp)
        · exact h2
      · exact h2

theorem foldl_distStep_sep (peaks : List ℕ) (d : ℕ) :
    ∀ (os : List ℕ) (keep : ℕ → Bool) (j k : ℕ), j ∈ os → j ≠ k →
      Nat.dist (peaks.getD j 0) (peaks.getD k 0) < d →
      (os.foldl (distStep peaks d) keep) j = true →
      (os.foldl (distStep peaks d) keep) k = true → False := by
  intro os
  induction os with
  | nil => intro keep j k hj _ _ _ _; exact absurd hj (by simp)
  | cons j2 os ih =>
      intro keep j k hj hne hdist hkj hkk
      rw [List.foldl_cons] at hkj hkk
      by_cases hjj : j2 = j
      · subst hjj
        by_cases hk : keep j2 = true
        · have hkfalse : distStep peaks d keep j2 k = false := by
            unfold distStep
            rw [if_pos hk]
            exact if_pos ⟨Ne.symm hne, hdist⟩
          have hmono := foldl_distStep_mono peaks d os (distStep peaks d keep j2) k hkk
          rw [hkfalse] at hmono
          exact absurd hmono (by simp)
        · have hstep : distStep peaks d keep j2 = keep := by
            unfold distStep; rw [if_neg hk]
          have hmono := foldl_distStep_mono peaks d os (distStep peaks d keep j2) j2 hkj
          rw [hstep] at hmono
          exact absurd hmono hk
      · have hjos : j ∈ os := by
          rcases List.mem_cons.mp hj with h | h
          · exact absurd h.symm hjj
          · exact h
        exact ih (distStep peaks d keep j2) j k hjos hne hdist hkj hkk

theorem selectByPeakDistance_pairwise (peaks : List ℕ) (heights : List ℚ) (d : ℕ) :
    List.Pairwise (fun p q => d ≤ Nat.dist p q)
      (selectByPeakDistance peaks heights d) := by
  unfold selectByPeakDistance
  rw [List.pairwise_map]
  have hp : List.Pairwise (· < ·) ((List.range peaks.length).filter fun i =>
      (priorityOrder heights peaks.length).foldl (distStep peaks d) (fun _ => true) i) :=
    (List.pairwise_lt_range _).filter _
  refine List.Pairwise.imp_of_mem ?_ hp
  intro a b ha hb hlt
  have ha2 := List.mem_filter.mp ha
  have hb2 := List.mem_filter.mp hb
  have han : a < peaks.length := List.mem_range.mp ha2.1
  have hmem : a ∈ priorityOrder heights peaks.length := by
    unfold priorityOrder
    rw [List.mem_reverse]
    exact (List.perm_insertionSort _ _).mem_iff.mpr (List.mem_range.mpr han)
  by_contra hcon
  push_neg at hcon
  exact foldl_distStep_sep peaks d _ _ a b hmem (Nat.ne_of_lt hlt) hcon ha2.2 hb2.2

theorem find_peaks_pairwise (mags : List ℚ) :
    List.Pairwise (fun p q => 50 ≤ Nat.dist p q) (find_peaks mags) := by
  unfold find_peaks
  exact selectByPeakDistance_pairwise _ _ _

theorem find_peaks_mem (mags : List ℚ) :
    ∀ p ∈ find_peaks mags, p ∈ localMaximaMid mags ∧ (1:ℚ)/10 ≤ mags.getD p 0 := by
  intro p hp
  unfold find_peaks selectByPeakDistance at hp
  have hsub : p ∈ (localMaximaMid mags).filter
      fun q => decide ((1:ℚ)/10 ≤ mags.getD q 0) := by
    obtain ⟨i, hi, rfl⟩ := List.mem_map.mp hp
    have hi2 := (List.mem_filter.mp hi).1
    have hin : i < ((localMaximaMid mags).filter
        fun q => decide ((1:ℚ)/10 ≤ mags.getD q 0)).length := List.mem_range.mp hi2
    rw [getD_of_lt hin]
    exact List.getElem_mem _
  have hmf := List.mem_filter.mp hsub
  exact ⟨hmf.1, by simpa using hmf.2⟩

theorem ranked_pairwise (pf pm : List ℚ) :
    List.Pairwise (fun a b : ℚ × ℚ => b.2 ≤ a.2)
      ((((argsortAsc pm).reverse).map fun i => (pf.getD i 0, pm.getD i 0)).take 10) := by
  apply List.Pairwise.sublist (List.take_sublist _ _)
  rw [List.pairwise_map, List.pairwise_reverse]
  haveI ht : IsTotal ℕ (fun i j => pm.getD i 0 < pm.getD j 0 ∨
      (pm.getD i 0 = pm.getD j 0 ∧ i ≤ j)) := ⟨by
    intro a b
    rcases lt_trichotomy (pm.getD a 0) (pm.getD b 0) with h | h | h
    · exact Or.inl (Or.inl h)
    · rcases le_total a b with h2 | h2
      · exact Or.inl (Or.inr ⟨h, h2⟩)
      · exact Or.inr (Or.inr ⟨h.symm, h2⟩)
    · exact Or.inr (Or.inl h)⟩
  haveI htr : IsTrans ℕ (fun i j => pm.getD i 0 < pm.getD j 0 ∨
      (pm.getD i 0 = pm.getD j 0 ∧ i ≤ j)) := ⟨by
    intro a b c hab hbc
    rcases hab with h1 | ⟨h1, h1b⟩ <;> rcases hbc with h2 | ⟨h2, h2b⟩
    · exact Or.inl (lt_trans h1 h2)
    · exact Or.inl (h2 ▸ h1)
    · exact Or.inl (h1 ▸ h2)
    · exact Or.inr ⟨h1.trans h2, le_trans h1b h2b⟩⟩
  have hs := List.sorted_insertionSort (fun i j => pm.getD i 0 < pm.getD j 0 ∨
      (pm.getD i 0 = pm.getD j 0 ∧ i ≤ j)) (List.range pm.length)
  unfold argsortAsc
  refine List.Pairwise.imp ?_ hs
  intro a b hab
  rcases hab with h | ⟨h, _⟩
  · exact le_of_lt h
  · exact le_of_eq h

theorem ranked_mem (freqs mags : List ℚ) :
    ∀ pr ∈ findPeaksRanked freqs mags, ∃ p ∈ find_peaks mags,
      pr = (freqs.getD p 0, mags.getD p 0) := by
  intro pr hpr
  simp only [findPeaksRanked] at hpr
  have hpr2 := (List.take_sublist _ _).subset hpr
  obtain ⟨i, hi, rfl⟩ := List.mem_map.mp hpr2
  rw [List.mem_reverse] at hi
  have hirange : i ∈ List.range ((find_peaks mags).map fun p => mags.getD p 0).length := by
    unfold argsortAsc at hi
    exact (List.perm_insertionSort _ _).mem_iff.mp hi
  have hilen : i < (find_peaks mags).length := by
    have := List.mem_range.mp hirange
    simpa using this
  refine ⟨(find_peaks mags).getD i 0, ?_, ?_⟩
  · rw [getD_of_lt hilen]
    exact List.getElem_mem _
  · have h1 : ((find_peaks mags).map fun p => freqs.getD p 0).getD i 0 =
        freqs.getD ((find_peaks mags).getD i 0) 0 := by
      rw [getD_of_lt (by simpa using hilen), getD_of_lt hilen, List.getElem_map]
    have h2 : ((find_peaks mags).map fun p => mags.getD p 0).getD i 0 =
        mags.getD ((find_peaks mags).getD i 0) 0 := by
      rw [getD_of_lt (by simpa using hilen), getD_of_lt hilen, List.getElem_map]
    rw [h1, h2]

/-- Claim C7, counterexample: the magnitudes `[0, 1/2, 0, 0, 9/10, 0]`
have local maxima at bins 1 (height 1/2) and 4 (height 9/10), 3 bins
apart.  The code (scipy's priority rule) keeps the taller peak at bin 4;
the claim's greedy left-to-right scan would keep the leftmost peak at
bin 1.  With bin frequencies `[0, 10, 20, 30, 40, 50]` the two outputs
differ. -/
theorem c7_counterexample_priority_vs_greedy :
    findPeaksRanked [0, 10, 20, 30, 40, 50] [0, 1/2, 0, 0, 9/10, 0] = [(40, 9/10)] ∧
    findPeaksSpecRanked [0, 10, 20, 30, 40, 50] [0, 1/2, 0, 0, 9/10, 0] = [(10, 1/2)] ∧
    ((40 : ℚ), (9/10 : ℚ)) ≠ ((10 : ℚ), (1/2 : ℚ)) :=
  ⟨by with_unfolding_all rfl, by with_unfolding_all rfl, by norm_num⟩

/-- Claim C7 (amended): `findPeaks` returns at most 10 peaks, sorted by
magnitude descending; every returned pair reads off a peak selected by
scipy's `find_peaks(height=0.1, distance=50)`; every selected peak is a
local maximum with magnitude at least `0.1`; and the selected peaks are
pairwise at least 50 bins apart — but the thinning keeps peaks in
decreasing order of height (scipy's priority rule), not by a greedy
left-to-right scan. -/
theorem c7_amended_ranked_structure (freqs mags : List ℚ) :
    (findPeaksRanked freqs mags).length ≤ 10 ∧
    List.Pairwise (fun a b : ℚ × ℚ => b.2 ≤ a.2) (findPeaksRanked freqs mags) ∧
    (∀ pr ∈ findPeaksRanked freqs mags, ∃ p ∈ find_peaks mags,
      pr = (freqs.getD p 0, mags.getD p 0)) ∧
    (∀ p ∈ find_peaks mags, p ∈ localMaximaMid mags ∧ (1:ℚ)/10 ≤ mags.getD p 0) ∧
    List.Pairwise (fun p q => 50 ≤ Nat.dist p q) (find_peaks mags) := by
  refine ⟨?_, ?_, ranked_mem freqs mags, find_peaks_mem mags, find_peaks_pairwise mags⟩
  · simp only [findPeaksRanked, List.length_take]
    exact min_le_left _ _
  · exact ranked_pairwise ((find_peaks mags).map fun p => freqs.getD p 0)
      ((find_peaks mags).map fun p => mags.getD p 0)
